import Mathlib

/-!
HashString: a shallow embedding of `src/HashString.h`: the djb2-style hash `PerformHash`, the
three constructors of `HashString` and its comparison operators.

Modelling conventions.

* A byte of memory is a `Fin 256`.
* A `const char*` is either the null pointer or a pointer to the first element of a
  character array; the array is the list of bytes from the pointee to the end of
  the object.  Dereferencing the null pointer or reading past the end of the array
  is undefined behaviour and is modelled by the result `none`.
* Whether plain `char` is signed is implementation-defined, so the embedding takes
  it as the parameter `charIsSigned`.
* `uint32_t` and `uint64_t` values are natural numbers, reduced explicitly modulo
  `2 ^ 32` and `2 ^ 64`.
* A `std::string` is the list of its `size()` bytes (embedded null bytes allowed);
  `c_str()` points at those bytes followed by one null byte.
-/

/-- One byte of memory. -/
abbrev Byte := Fin 256

/-- A `const char*`: `none` is the null pointer, `some buf` points at the first
element of the character array `buf`. -/
abbrev CharPtr := Option (List Byte)

/-- A `std::string`: its `size()` bytes. -/
abbrev StdString := List Byte

/-- The pointer returned by `std::string::c_str()`: the contents followed by a
terminating null byte. -/
def StdString.c_str (s : StdString) : CharPtr := some (s ++ [0])

/-- The value of a plain `char` object whose representation is the byte `b`:
`b` itself where `char` is unsigned, the two's complement reading where it is
signed. -/
def charValue (charIsSigned : Bool) (b : Byte) : Int :=
  if charIsSigned && decide (128 ≤ b.val) then (b.val : Int) - 256 else (b.val : Int)

/-- Integer conversion to `uint32_t`: reduction modulo `2 ^ 32`. -/
def toUInt32 (v : Int) : Nat := (v % 2 ^ 32).toNat

/-- The data member of `HashString`. -/
structure HashString where
  m_uiHashOfString : Nat
  deriving DecidableEq, Repr

namespace HashString

/-- The `while (uiCharacter = *pHashedString++)` loop of `PerformHash`: the first
argument is the array still ahead of the pointer, the second is `uiHashValue`. -/
def PerformHashLoop (charIsSigned : Bool) : List Byte → Nat → Option Nat
  | [], _ => none
  | b :: rest, uiHashValue =>
    let uiCharacter := toUInt32 (charValue charIsSigned b)
    if uiCharacter = 0 then some uiHashValue
    else PerformHashLoop charIsSigned rest
      (((uiHashValue * 33) % 2 ^ 64 + uiCharacter) % 2 ^ 64)

/-- `static uint64_t PerformHash(const char* pHashedString)`. -/
def PerformHash (charIsSigned : Bool) : CharPtr → Option Nat
  | none => none
  | some buf => PerformHashLoop charIsSigned buf 5381

/-- `explicit HashString(const char* pHashedString)`. -/
def fromCStr (charIsSigned : Bool) (pHashedString : CharPtr) : Option HashString :=
  (PerformHash charIsSigned pHashedString).map HashString.mk

/-- `explicit HashString(const std::string& rHashedString)`. -/
def fromStdString (charIsSigned : Bool) (rHashedString : StdString) : Option HashString :=
  (PerformHash charIsSigned (StdString.c_str rHashedString)).map HashString.mk

/-- `HashString(const HashString& rOtherHashString)`. -/
def copy (rOtherHashString : HashString) : HashString :=
  ⟨rOtherHashString.m_uiHashOfString⟩

/-- `bool operator== (const char* pOtherString) const`. -/
def operatorEqCStr (charIsSigned : Bool) (self : HashString) (pOtherString : CharPtr) :
    Option Bool :=
  (PerformHash charIsSigned pOtherString).map
    (fun uiOther => decide (self.m_uiHashOfString = uiOther))

/-- `bool operator== (const std::string& rOtherString) const`. -/
def operatorEqStdString (charIsSigned : Bool) (self : HashString) (rOtherString : StdString) :
    Option Bool :=
  (PerformHash charIsSigned (StdString.c_str rOtherString)).map
    (fun uiOther => decide (self.m_uiHashOfString = uiOther))

/-- `bool operator== (const HashString& rOtherHashString) const`. -/
def operatorEq (self rOtherHashString : HashString) : Bool :=
  decide (self.m_uiHashOfString = rOtherHashString.m_uiHashOfString)

/-- `bool operator!= (const char* pOtherString) const`. -/
def operatorNeCStr (charIsSigned : Bool) (self : HashString) (pOtherString : CharPtr) :
    Option Bool :=
  (operatorEqCStr charIsSigned self pOtherString).map (fun r => !r)

/-- `bool operator!= (const std::string& rOtherString) const`; it goes through the
`const char*` overload of `operator==`. -/
def operatorNeStdString (charIsSigned : Bool) (self : HashString) (rOtherString : StdString) :
    Option Bool :=
  (operatorEqCStr charIsSigned self (StdString.c_str rOtherString)).map (fun r => !r)

/-- `bool operator!= (const HashString& rOtherHashString) const`. -/
def operatorNe (self rOtherHashString : HashString) : Bool :=
  !(operatorEq self rOtherHashString)

/-- `operator== (const char* pString, const HashString& rHashString)`. -/
def rawCStrEq (charIsSigned : Bool) (pString : CharPtr) (rHashString : HashString) :
    Option Bool :=
  operatorEqCStr charIsSigned rHashString pString

/-- `operator== (const std::string rString, const HashString& rHashString)`. -/
def rawStdStringEq (charIsSigned : Bool) (rString : StdString) (rHashString : HashString) :
    Option Bool :=
  operatorEqStdString charIsSigned rHashString rString

/-- `operator!= (const char* pString, const HashString& rHashString)`. -/
def rawCStrNe (charIsSigned : Bool) (pString : CharPtr) (rHashString : HashString) :
    Option Bool :=
  (operatorEqCStr charIsSigned rHashString pString).map (fun r => !r)

/-- `operator!= (const std::string rString, const HashString& rHashString)`. -/
def rawStdStringNe (charIsSigned : Bool) (rString : StdString) (rHashString : HashString) :
    Option Bool :=
  (operatorEqStdString charIsSigned rHashString rString).map (fun r => !r)

end HashString

/-- The null-terminated array holding the characters `s`, as a string literal or a
caller's buffer provides it. -/
def cString (s : List Byte) : CharPtr := some (s ++ [0])

/-- The loop of `PerformHash` once more, with a counter of the executed loop bodies:
the third argument is the number of bodies executed so far, and the counter is
returned next to `uiHashValue`. -/
def HashString.PerformHashLoopCount (charIsSigned : Bool) :
    List Byte → Nat → Nat → Option (Nat × Nat)
  | [], _, _ => none
  | b :: rest, uiHashValue, n =>
    let uiCharacter := toUInt32 (charValue charIsSigned b)
    if uiCharacter = 0 then some (uiHashValue, n)
    else HashString.PerformHashLoopCount charIsSigned rest
      (((uiHashValue * 33) % 2 ^ 64 + uiCharacter) % 2 ^ 64) (n + 1)

/-- How a constructor call can end: with an instance, with a signalled contract
violation (an assertion, an error result or an exception), or in undefined
behaviour. -/
inductive ConstructionOutcome where
  | constructed (h : HashString)
  | rejected
  | undefined
  deriving DecidableEq, Repr

/-- The call `HashString(pHashedString)` as an outcome.  The constructor has no
statement besides the member initialiser `m_uiHashOfString(PerformHash(pHashedString))`,
so it ends with an instance when `PerformHash` returns and in undefined behaviour when
`PerformHash` dereferences a null pointer or runs off the array. -/
def HashString.constructCStr (charIsSigned : Bool) (pHashedString : CharPtr) :
    ConstructionOutcome :=
  match HashString.fromCStr charIsSigned pHashedString with
  | some h => ConstructionOutcome.constructed h
  | none => ConstructionOutcome.undefined

/-- The public operations that take an existing instance as an operand: the ten
comparison operators and copy construction from the instance.  `operator=` is deleted
in the class, so there is no assignment among them. -/
inductive PublicOp where
  | eqCStr (pOtherString : CharPtr)
  | eqStdString (rOtherString : StdString)
  | eqHashString (rOtherHashString : HashString)
  | neCStr (pOtherString : CharPtr)
  | neStdString (rOtherString : StdString)
  | neHashString (rOtherHashString : HashString)
  | rawCStrEq (pString : CharPtr)
  | rawStdStringEq (rString : StdString)
  | rawCStrNe (pString : CharPtr)
  | rawStdStringNe (rString : StdString)
  | copyConstruct

/-- The value an operation returns: a `bool` or a new instance. -/
inductive OpValue where
  | bool (b : Bool)
  | newInstance (h : HashString)
  deriving DecidableEq, Repr

/-- One public operation applied to the object `self`, in state-passing form: the
object after the call, and the returned value.  The member operators are
`const`-qualified, the free operators and the copy constructor take the instance by
`const` reference, and no body assigns to `m_uiHashOfString`, so the object after the
call is the object before it. -/
def HashString.call (charIsSigned : Bool) (self : HashString) :
    PublicOp → Option (HashString × OpValue)
  | PublicOp.eqCStr p =>
    (HashString.operatorEqCStr charIsSigned self p).map (fun b => (self, OpValue.bool b))
  | PublicOp.eqStdString r =>
    (HashString.operatorEqStdString charIsSigned self r).map (fun b => (self, OpValue.bool b))
  | PublicOp.eqHashString g => some (self, OpValue.bool (HashString.operatorEq self g))
  | PublicOp.neCStr p =>
    (HashString.operatorNeCStr charIsSigned self p).map (fun b => (self, OpValue.bool b))
  | PublicOp.neStdString r =>
    (HashString.operatorNeStdString charIsSigned self r).map (fun b => (self, OpValue.bool b))
  | PublicOp.neHashString g => some (self, OpValue.bool (HashString.operatorNe self g))
  | PublicOp.rawCStrEq p =>
    (HashString.rawCStrEq charIsSigned p self).map (fun b => (self, OpValue.bool b))
  | PublicOp.rawStdStringEq r =>
    (HashString.rawStdStringEq charIsSigned r self).map (fun b => (self, OpValue.bool b))
  | PublicOp.rawCStrNe p =>
    (HashString.rawCStrNe charIsSigned p self).map (fun b => (self, OpValue.bool b))
  | PublicOp.rawStdStringNe r =>
    (HashString.rawStdStringNe charIsSigned r self).map (fun b => (self, OpValue.bool b))
  | PublicOp.copyConstruct => some (self, OpValue.newInstance (HashString.copy self))

/-- A sequence of public operations applied to one object, each to the object the
previous one left; the result is the object after the last call. -/
def HashString.callAll (charIsSigned : Bool) (self : HashString) :
    List PublicOp → Option HashString
  | [] => some self
  | op :: ops =>
    match HashString.call charIsSigned self op with
    | none => none
    | some (after, _) => HashString.callAll charIsSigned after ops

/-- Whether a `const char*` points at an array that holds a null byte. -/
def CharPtr.terminated : CharPtr → Bool
  | none => false
  | some buf => buf.contains 0

/-- Whether the raw C-string operand of an operation, if it has one, points at a
null-terminated array. -/
def PublicOp.operandTerminated : PublicOp → Bool
  | PublicOp.eqCStr p => CharPtr.terminated p
  | PublicOp.neCStr p => CharPtr.terminated p
  | PublicOp.rawCStrEq p => CharPtr.terminated p
  | PublicOp.rawCStrNe p => CharPtr.terminated p
  | _ => true

/-! The character conversion -/

theorem toUInt32_charValue_unsigned (b : Byte) : toUInt32 (charValue false b) = b.val := by
  have hb := b.isLt
  simp only [toUInt32, charValue]
  simp
  omega

theorem toUInt32_charValue_low (sgn : Bool) (b : Byte) (h : b.val ≤ 127) :
    toUInt32 (charValue sgn b) = b.val := by
  simp only [toUInt32, charValue]
  cases sgn <;> simp <;> omega

theorem toUInt32_charValue_signed_high (b : Byte) (h : 128 ≤ b.val) :
    toUInt32 (charValue true b) = b.val + 4294967040 := by
  have hb := b.isLt
  simp only [toUInt32, charValue]
  simp [h]
  omega

theorem toUInt32_charValue_eq_zero (sgn : Bool) (b : Byte) :
    toUInt32 (charValue sgn b) = 0 ↔ b = 0 := by
  have hb := b.isLt
  rw [Fin.ext_iff]
  simp only [toUInt32, charValue]
  cases sgn <;> simp <;> omega

/-! The loop of `PerformHash` -/

/-- The two wrapping operations of one loop step amount to one reduction. -/
theorem step_mod (h c : Nat) : ((h * 33) % 2 ^ 64 + c) % 2 ^ 64 = (h * 33 + c) % 2 ^ 64 := by
  omega

/-- On characters `s` without a null byte, followed by a null byte and anything else,
the loop returns the fold of the step over `s` and reads nothing behind the null. -/
theorem PerformHashLoop_append_null (sgn : Bool) (s t : List Byte) (hs : ∀ b ∈ s, b ≠ 0) :
    ∀ acc : Nat, HashString.PerformHashLoop sgn (s ++ 0 :: t) acc =
      some (s.foldl (fun a b => (a * 33 + toUInt32 (charValue sgn b)) % 2 ^ 64) acc) := by
  induction s with
  | nil =>
    intro acc
    have h0 : toUInt32 (charValue sgn (0 : Byte)) = 0 :=
      (toUInt32_charValue_eq_zero sgn 0).mpr rfl
    simp [HashString.PerformHashLoop, h0]
  | cons b s ih =>
    intro acc
    have hb : toUInt32 (charValue sgn b) ≠ 0 := fun h =>
      hs b (List.mem_cons_self b s) ((toUInt32_charValue_eq_zero sgn b).mp h)
    have hs2 : ∀ x ∈ s, x ≠ 0 := fun x hx => hs x (List.mem_cons_of_mem b hx)
    simp only [List.cons_append, HashString.PerformHashLoop, hb, if_false, List.foldl_cons,
      step_mod]
    exact ih hs2 _

/-- Two folds over the same list agree when their steps agree on its elements. -/
theorem foldl_congr_mem {α β : Type} (f g : α → β → α) (l : List β)
    (h : ∀ a, ∀ b ∈ l, f a b = g a b) : ∀ a, l.foldl f a = l.foldl g a := by
  induction l with
  | nil => intro a; rfl
  | cons x l ih =>
    intro a
    simp only [List.foldl_cons]
    rw [h a x (List.mem_cons_self x l)]
    exact ih (fun a b hb => h a b (List.mem_cons_of_mem x hb)) _

/-- Every value the loop returns from a 64-bit start value is a 64-bit value. -/
theorem PerformHashLoop_lt (sgn : Bool) (buf : List Byte) :
    ∀ acc r, acc < 2 ^ 64 → HashString.PerformHashLoop sgn buf acc = some r → r < 2 ^ 64 := by
  induction buf with
  | nil => intro acc r _ h; simp [HashString.PerformHashLoop] at h
  | cons b rest ih =>
    intro acc r hacc h
    simp only [HashString.PerformHashLoop] at h
    split at h
    · cases h; exact hacc
    · exact ih _ r (Nat.mod_lt _ (by norm_num)) h

/-- A byte whose value is at least one is not the null byte. -/
theorem ne_zero_of_one_le (b : Byte) (h : 1 ≤ b.val) : b ≠ 0 := by
  intro h0
  rw [h0] at h
  exact absurd h (by decide)

/-- `PerformHash` on a buffer with a null byte after the null-free characters `s`. -/
theorem PerformHash_append_null (sgn : Bool) (s t : List Byte) (hs : ∀ b ∈ s, b ≠ 0) :
    HashString.PerformHash sgn (some (s ++ 0 :: t)) =
      some (s.foldl (fun a b => (a * 33 + toUInt32 (charValue sgn b)) % 2 ^ 64) 5381) :=
  PerformHashLoop_append_null sgn s t hs 5381

/-- `PerformHash` on the null-terminated array of the null-free characters `s`. -/
theorem PerformHash_cString (sgn : Bool) (s : List Byte) (hs : ∀ b ∈ s, b ≠ 0) :
    HashString.PerformHash sgn (cString s) =
      some (s.foldl (fun a b => (a * 33 + toUInt32 (charValue sgn b)) % 2 ^ 64) 5381) :=
  PerformHashLoop_append_null sgn s [] hs 5381

/-- Every list of bytes splits at its first null byte, if it has one. -/
theorem exists_null_free_split (s : List Byte) :
    (∀ b ∈ s, b ≠ 0) ∨ ∃ pre post, s = pre ++ 0 :: post ∧ ∀ b ∈ pre, b ≠ 0 := by
  induction s with
  | nil => left; intro b hb; cases hb
  | cons x s ih =>
    by_cases hx : x = 0
    · right
      exact ⟨[], s, by simp [hx], by intro b hb; cases hb⟩
    · rcases ih with h | ⟨pre, post, hsplit, hpre⟩
      · left
        intro b hb
        rcases List.mem_cons.mp hb with rfl | hb
        · exact hx
        · exact h b hb
      · right
        refine ⟨x :: pre, post, by simp [hsplit], ?_⟩
        intro b hb
        rcases List.mem_cons.mp hb with rfl | hb
        · exact hx
        · exact hpre b hb

/-- `PerformHash` returns a value on the pointer of every `std::string`. -/
theorem PerformHash_c_str_isSome (sgn : Bool) (s : StdString) :
    ∃ v, HashString.PerformHash sgn (StdString.c_str s) = some v := by
  rcases exists_null_free_split s with h | ⟨pre, post, hsplit, hpre⟩
  · exact ⟨_, PerformHash_cString sgn s h⟩
  · have h := PerformHash_append_null sgn pre (post ++ [0]) hpre
    rw [StdString.c_str, hsplit, List.append_assoc, List.cons_append]
    exact ⟨_, h⟩

/-! The claims -/

/-- C1: for every byte string `s` whose bytes all lie in `1..127` (so none is null),
`PerformHash` on the null-terminated `s` returns the left fold
`acc := (acc * 33 + c) mod 2^64` over the bytes of `s` in order, started at `5381`;
a value is always returned, overflow wraps. -/
theorem PerformHash_ascii_fold (sgn : Bool) (s : List Byte)
    (hs : ∀ b ∈ s, 1 ≤ b.val ∧ b.val ≤ 127) :
    HashString.PerformHash sgn (cString s) =
      some (s.foldl (fun acc c => (acc * 33 + c.val) % 2 ^ 64) 5381) := by
  rw [PerformHash_cString sgn s (fun b hb => ne_zero_of_one_le b (hs b hb).1)]
  congr 1
  apply foldl_congr_mem
  intro a b hb
  rw [toUInt32_charValue_low sgn b (hs b hb).2]

/-- Witness of C1 at a 14-character string, long enough for the accumulator to wrap. -/
theorem PerformHash_ascii_fold_witness :
    (∀ b ∈ ([122, 122, 122, 122, 122, 122, 122, 122, 122, 122, 122, 122, 122, 122] :
        List Byte), 1 ≤ b.val ∧ b.val ≤ 127) ∧
    HashString.PerformHash true
        (cString [122, 122, 122, 122, 122, 122, 122, 122, 122, 122, 122, 122, 122, 122]) =
      some (([122, 122, 122, 122, 122, 122, 122, 122, 122, 122, 122, 122, 122, 122] :
        List Byte).foldl (fun acc c => (acc * 33 + c.val) % 2 ^ 64) 5381) :=
  ⟨by simp; decide, PerformHash_ascii_fold true _ (by simp; decide)⟩

/-- C2, as stated, fails where plain `char` is signed: the byte `128` read through a
signed `char` converts to the 32-bit value `4294967168`, so the hash of the one-byte
string is `4295144741` and not `177573 + 128`. -/
theorem PerformHash_high_byte_counterexample :
    HashString.PerformHash true (cString [128]) = some 4295144741 ∧
    HashString.PerformHash true (cString [128]) ≠ some (177573 + 128) := by
  have h : HashString.PerformHash true (cString [128]) = some 4295144741 := by
    rw [PerformHash_cString true [128] (by simp)]
    simp only [List.foldl_cons, List.foldl_nil]
    rw [toUInt32_charValue_signed_high 128 (by decide)]
    rfl
  refine ⟨h, ?_⟩
  rw [h]
  simp

/-- C2, amended: for every byte value `c` in `128..255` the hash of the one-byte
string is `177573 + c` where plain `char` is unsigned, and `177573 + (c + 2^32 - 256)`
where plain `char` is signed (the `char` is sign-extended to the 32-bit
`uiCharacter`, and that 32-bit value is zero-extended to 64 bits). -/
theorem PerformHash_high_byte (c : Byte) (hc : 128 ≤ c.val) :
    HashString.PerformHash false (cString [c]) = some (177573 + c.val) ∧
    HashString.PerformHash true (cString [c]) = some (177573 + (c.val + 2 ^ 32 - 256)) := by
  have hlt := c.isLt
  have hne : ∀ b ∈ [c], b ≠ 0 := by
    intro b hb
    rw [List.mem_singleton.mp hb]
    exact ne_zero_of_one_le c (by omega)
  constructor
  · rw [PerformHash_cString false [c] hne]
    simp only [List.foldl_cons, List.foldl_nil]
    rw [toUInt32_charValue_unsigned]
    exact congrArg some (by omega)
  · rw [PerformHash_cString true [c] hne]
    simp only [List.foldl_cons, List.foldl_nil]
    rw [toUInt32_charValue_signed_high c hc]
    exact congrArg some (by omega)

/-- Witness of the amended C2 at the byte `200`. -/
theorem PerformHash_high_byte_witness :
    128 ≤ (200 : Byte).val ∧
    HashString.PerformHash false (cString [200]) = some (177573 + (200 : Byte).val) ∧
    HashString.PerformHash true (cString [200]) =
      some (177573 + ((200 : Byte).val + 2 ^ 32 - 256)) :=
  ⟨by decide, PerformHash_high_byte 200 (by decide)⟩

/-- C3: a `HashString` constructed from the empty string, through the C-string or the
`std::string` constructor, stores the seed constant `5381`. -/
theorem empty_string_stores_seed (sgn : Bool) :
    HashString.fromCStr sgn (cString []) = some ⟨5381⟩ ∧
    HashString.fromStdString sgn [] = some ⟨5381⟩ := by
  cases sgn <;> exact ⟨rfl, rfl⟩

/-- The hash of the literal `"A"`. -/
theorem PerformHash_A (sgn : Bool) :
    HashString.PerformHash sgn (cString [65]) = some 177638 := by
  cases sgn <;> rfl

/-- The hash of the literal `"AB"`. -/
theorem PerformHash_AB (sgn : Bool) :
    HashString.PerformHash sgn (cString [65, 66]) = some 5862120 := by
  cases sgn <;> rfl

/-- C4, as stated, fails: the hash of `"A"` is `5381 * 33 + 65 = 177638`, not
`177648`. -/
theorem literal_A_hash_counterexample :
    HashString.PerformHash false (cString [65]) = some 177638 ∧
    HashString.PerformHash false (cString [65]) ≠ some 177648 := by
  rw [PerformHash_A]
  exact ⟨rfl, by simp⟩

/-- C4, amended: for the literal input `"A"` (the single byte 65) the hash computed by
`PerformHash` is `5381 * 33 + 65 = 177638`. -/
theorem literal_A_hash (sgn : Bool) :
    HashString.PerformHash sgn (cString [65]) = some (5381 * 33 + 65) ∧
    HashString.PerformHash sgn (cString [65]) = some 177638 :=
  ⟨PerformHash_A sgn, PerformHash_A sgn⟩

/-- C5, as stated, fails: the hash of `"AB"` is `(5381 * 33 + 65) * 33 + 66 = 5862120`,
not `5862450`. -/
theorem literal_AB_hash_counterexample :
    HashString.PerformHash false (cString [65, 66]) = some 5862120 ∧
    HashString.PerformHash false (cString [65, 66]) ≠ some 5862450 := by
  rw [PerformHash_AB]
  exact ⟨rfl, by simp⟩

/-- C5, amended: for the literal input `"AB"` (bytes 65, 66) the hash computed by
`PerformHash` is `(5381 * 33 + 65) * 33 + 66 = 5862120`. -/
theorem literal_AB_hash (sgn : Bool) :
    HashString.PerformHash sgn (cString [65, 66]) = some ((5381 * 33 + 65) * 33 + 66) ∧
    HashString.PerformHash sgn (cString [65, 66]) = some 5862120 :=
  ⟨PerformHash_AB sgn, PerformHash_AB sgn⟩

/-- C6: C-string truncation.  For every null-free byte string `s` and every byte
string `t`, `PerformHash` on the buffer `s ++ [0] ++ t` returns a value, the same as on
the null-terminated `s`, and that value is the fold of the step over the bytes of `s`
alone: the null byte and what follows it contribute nothing.  The C-string constructor
therefore builds the same instance from both, and `"AB\0CD"` hashes as `"AB"`. -/
theorem PerformHash_truncates_at_null (sgn : Bool) (s t : List Byte)
    (hs : ∀ b ∈ s, b ≠ 0) :
    HashString.PerformHash sgn (some (s ++ [0] ++ t)) = HashString.PerformHash sgn (cString s) ∧
    HashString.PerformHash sgn (some (s ++ [0] ++ t)) =
      some (s.foldl (fun a b => (a * 33 + toUInt32 (charValue sgn b)) % 2 ^ 64) 5381) ∧
    HashString.fromCStr sgn (some (s ++ [0] ++ t)) = HashString.fromCStr sgn (cString s) ∧
    HashString.PerformHash sgn (some [65, 66, 0, 67, 68, 0]) =
      HashString.PerformHash sgn (cString [65, 66]) := by
  have h1 : HashString.PerformHash sgn (some (s ++ [0] ++ t)) =
      some (s.foldl (fun a b => (a * 33 + toUInt32 (charValue sgn b)) % 2 ^ 64) 5381) := by
    rw [List.append_assoc]
    exact PerformHash_append_null sgn s t hs
  have h2 := PerformHash_cString sgn s hs
  refine ⟨by rw [h1, h2], h1, ?_, ?_⟩
  · simp only [HashString.fromCStr, h1, h2]
  · cases sgn <;> rfl

/-- Witness of C6 at `s = "AB"`, `t = "CD"`. -/
theorem PerformHash_truncates_at_null_witness :
    (∀ b ∈ ([65, 66] : List Byte), b ≠ 0) ∧
    HashString.PerformHash true (some ([65, 66] ++ [0] ++ [67, 68])) =
      HashString.PerformHash true (cString [65, 66]) :=
  ⟨by simp, (PerformHash_truncates_at_null true [65, 66] [67, 68] (by simp)).1⟩

/-- `PerformHash` on the pointer of a `std::string` with an embedded null byte stops at
that byte. -/
theorem PerformHash_c_str_embedded_null (sgn : Bool) (pre post : List Byte)
    (hpre : ∀ b ∈ pre, b ≠ 0) :
    HashString.PerformHash sgn (StdString.c_str (pre ++ 0 :: post)) =
      some (pre.foldl (fun a b => (a * 33 + toUInt32 (charValue sgn b)) % 2 ^ 64) 5381) := by
  have h := PerformHash_append_null sgn pre (post ++ [0]) hpre
  rw [StdString.c_str, List.append_assoc, List.cons_append]
  exact h

/-- C7, as stated, fails: the `std::string` constructor hands `c_str()` to the
null-terminated hash, so from the 5-byte string `'A','B',0,'C','D'` it stores the value
of `HashString("AB")` and of the C-string `"AB\0CD"`, not the hash of all 5 bytes. -/
theorem fromStdString_embedded_null_counterexample :
    HashString.fromStdString false [65, 66, 0, 67, 68] =
      HashString.fromCStr false (cString [65, 66]) ∧
    HashString.fromStdString false [65, 66, 0, 67, 68] =
      HashString.fromCStr false (some [65, 66, 0, 67, 68, 0]) ∧
    HashString.fromStdString false [65, 66, 0, 67, 68] = some ⟨5862120⟩ ∧
    ([65, 66, 0, 67, 68] : List Byte).foldl (fun acc c => (acc * 33 + c.val) % 2 ^ 64) 5381 =
      210667008719 := by
  refine ⟨rfl, rfl, rfl, rfl⟩

/-- C7, amended: construction through the `std::string` constructor hashes the bytes
before the first null byte of the contents: all `length` bytes when the contents hold
no null byte, and only the part `pre` of contents `pre ++ [0] ++ post`, which gives the
instance built from the C-string `pre`.  From the 5-byte string `'A','B',0,'C','D'`
the stored value is `5862120`, that of `HashString("AB")` and of the C-string
`"AB\0CD"`, and comparing against that 5-byte string is comparing against `"AB"`. -/
theorem fromStdString_hashes_to_first_null (sgn : Bool) (pre post : List Byte)
    (hpre : ∀ b ∈ pre, b ≠ 0) :
    HashString.fromStdString sgn pre =
      some ⟨pre.foldl (fun a b => (a * 33 + toUInt32 (charValue sgn b)) % 2 ^ 64) 5381⟩ ∧
    HashString.fromStdString sgn (pre ++ 0 :: post) = HashString.fromCStr sgn (cString pre) ∧
    HashString.fromStdString sgn [65, 66, 0, 67, 68] = some ⟨5862120⟩ ∧
    HashString.fromCStr sgn (cString [65, 66]) = some ⟨5862120⟩ ∧
    HashString.fromCStr sgn (some [65, 66, 0, 67, 68, 0]) = some ⟨5862120⟩ ∧
    ∀ h : HashString, HashString.operatorEqStdString sgn h [65, 66, 0, 67, 68] =
      HashString.operatorEqCStr sgn h (cString [65, 66]) := by
  have h1 : HashString.PerformHash sgn (StdString.c_str pre) = _ :=
    PerformHash_cString sgn pre hpre
  have h2 := PerformHash_c_str_embedded_null sgn pre post hpre
  have h3 := PerformHash_cString sgn pre hpre
  have h4 : HashString.PerformHash sgn (StdString.c_str [65, 66, 0, 67, 68]) =
      some 5862120 := by cases sgn <;> rfl
  have h5 : HashString.PerformHash sgn (some [65, 66, 0, 67, 68, 0]) = some 5862120 := by
    cases sgn <;> rfl
  refine ⟨?_, ?_, ?_, ?_, ?_, ?_⟩
  · simp only [HashString.fromStdString, h1, Option.map_some']
  · simp only [HashString.fromStdString, HashString.fromCStr, h2, h3]
  · simp only [HashString.fromStdString, h4, Option.map_some']
  · simp only [HashString.fromCStr, PerformHash_AB, Option.map_some']
  · simp only [HashString.fromCStr, h5, Option.map_some']
  · intro h
    simp only [HashString.operatorEqStdString, HashString.operatorEqCStr, h4, PerformHash_AB]

/-- Witness of the amended C7 at `pre = "AB"`, `post = "CD"`. -/
theorem fromStdString_hashes_to_first_null_witness :
    (∀ b ∈ ([65, 66] : List Byte), b ≠ 0) ∧
    HashString.fromStdString true ([65, 66] ++ 0 :: [67, 68]) =
      HashString.fromCStr true (cString [65, 66]) :=
  ⟨by simp, (fromStdString_hashes_to_first_null true [65, 66] [67, 68] (by simp)).2.1⟩

/-- What construction and comparison give on a pointer on which `PerformHash`
returns `v`. -/
theorem construct_compare_of_hash (sgn : Bool) (p : CharPtr) (v : Nat)
    (hv : HashString.PerformHash sgn p = some v) :
    HashString.fromCStr sgn p = some ⟨v⟩ ∧
    HashString.operatorEqCStr sgn ⟨v⟩ p = some true ∧
    HashString.rawCStrEq sgn p ⟨v⟩ = some true := by
  simp [HashString.fromCStr, HashString.operatorEqCStr, HashString.rawCStrEq, hv]

/-- C8: no false negatives.  For every C-string `s` (null-free characters, null
terminated) and every `std::string` `r`, construction yields an instance; any two
instances constructed from the same string hold equal stored integers and compare
equal to each other, and each compares equal to the string itself in both operand
orders. -/
theorem no_false_negatives (sgn : Bool) (s : List Byte) (hs : ∀ b ∈ s, b ≠ 0)
    (r : StdString) :
    (∃ h1, HashString.fromCStr sgn (cString s) = some h1 ∧
      ∀ h2, HashString.fromCStr sgn (cString s) = some h2 →
        h1.m_uiHashOfString = h2.m_uiHashOfString ∧
        HashString.operatorEq h1 h2 = true ∧ HashString.operatorEq h2 h1 = true ∧
        HashString.operatorEqCStr sgn h1 (cString s) = some true ∧
        HashString.rawCStrEq sgn (cString s) h1 = some true ∧
        HashString.operatorEqCStr sgn h2 (cString s) = some true ∧
        HashString.rawCStrEq sgn (cString s) h2 = some true) ∧
    (∃ g1, HashString.fromStdString sgn r = some g1 ∧
      ∀ g2, HashString.fromStdString sgn r = some g2 →
        g1.m_uiHashOfString = g2.m_uiHashOfString ∧
        HashString.operatorEq g1 g2 = true ∧ HashString.operatorEq g2 g1 = true ∧
        HashString.operatorEqStdString sgn g1 r = some true ∧
        HashString.rawStdStringEq sgn r g1 = some true ∧
        HashString.operatorEqStdString sgn g2 r = some true ∧
        HashString.rawStdStringEq sgn r g2 = some true) := by
  constructor
  · have hv := PerformHash_cString sgn s hs
    obtain ⟨hc, he, hr⟩ := construct_compare_of_hash sgn _ _ hv
    refine ⟨_, hc, ?_⟩
    intro h2 hh2
    rw [hc] at hh2
    cases hh2
    exact ⟨rfl, by simp [HashString.operatorEq], by simp [HashString.operatorEq],
      he, hr, he, hr⟩
  · obtain ⟨v, hv⟩ := PerformHash_c_str_isSome sgn r
    obtain ⟨hc, he, hr⟩ := construct_compare_of_hash sgn _ _ hv
    refine ⟨⟨v⟩, hc, ?_⟩
    intro g2 hg2
    have hc2 : HashString.fromStdString sgn r = some ⟨v⟩ := hc
    rw [hc2] at hg2
    cases hg2
    exact ⟨rfl, by simp [HashString.operatorEq], by simp [HashString.operatorEq],
      he, hr, he, hr⟩

/-- Witness of C8 at the C-string `"AB"` and the `std::string` `'A','B',0,'C','D'`. -/
theorem no_false_negatives_witness :
    (∀ b ∈ ([65, 66] : List Byte), b ≠ 0) ∧
    ∃ g1, HashString.fromStdString true [65, 66, 0, 67, 68] = some g1 ∧
      ∀ g2, HashString.fromStdString true [65, 66, 0, 67, 68] = some g2 →
        g1.m_uiHashOfString = g2.m_uiHashOfString ∧
        HashString.operatorEq g1 g2 = true ∧ HashString.operatorEq g2 g1 = true ∧
        HashString.operatorEqStdString true g1 [65, 66, 0, 67, 68] = some true ∧
        HashString.rawStdStringEq true [65, 66, 0, 67, 68] g1 = some true ∧
        HashString.operatorEqStdString true g2 [65, 66, 0, 67, 68] = some true ∧
        HashString.rawStdStringEq true [65, 66, 0, 67, 68] g2 = some true :=
  ⟨by simp, (no_false_negatives true [65, 66] (by simp) [65, 66, 0, 67, 68]).2⟩

/-- C9: for every `HashString` `h` and every raw string (a `const char*` `p` or a
`std::string` `r`), `h == r` and `r == h` are both true exactly when `PerformHash`
applied to the raw string returns the stored integer of `h`; and each of the four
comparisons is the comparison of `h` with the instance constructed from the raw
string. -/
theorem raw_eq_iff_hash_eq (sgn : Bool) (h : HashString) (p : CharPtr) (r : StdString) :
    ((HashString.operatorEqCStr sgn h p = some true ∧
        HashString.rawCStrEq sgn p h = some true) ↔
      HashString.PerformHash sgn p = some h.m_uiHashOfString) ∧
    ((HashString.operatorEqStdString sgn h r = some true ∧
        HashString.rawStdStringEq sgn r h = some true) ↔
      HashString.PerformHash sgn (StdString.c_str r) = some h.m_uiHashOfString) ∧
    HashString.operatorEqCStr sgn h p =
      (HashString.fromCStr sgn p).map (HashString.operatorEq h) ∧
    HashString.rawCStrEq sgn p h =
      (HashString.fromCStr sgn p).map (HashString.operatorEq h) ∧
    HashString.operatorEqStdString sgn h r =
      (HashString.fromStdString sgn r).map (HashString.operatorEq h) ∧
    HashString.rawStdStringEq sgn r h =
      (HashString.fromStdString sgn r).map (HashString.operatorEq h) := by
  have key : ∀ q : CharPtr,
      ((HashString.PerformHash sgn q).map
          (fun uiOther => decide (h.m_uiHashOfString = uiOther)) = some true ↔
        HashString.PerformHash sgn q = some h.m_uiHashOfString) := by
    intro q
    cases HashString.PerformHash sgn q with
    | none => simp
    | some v => simp [eq_comm]
  have key2 : ∀ q : CharPtr,
      (HashString.PerformHash sgn q).map
          (fun uiOther => decide (h.m_uiHashOfString = uiOther)) =
        ((HashString.PerformHash sgn q).map HashString.mk).map (HashString.operatorEq h) := by
    intro q
    cases HashString.PerformHash sgn q with
    | none => rfl
    | some v => rfl
  refine ⟨?_, ?_, key2 p, key2 p, key2 _, key2 _⟩
  · simp only [HashString.rawCStrEq, HashString.operatorEqCStr, and_self]
    exact key p
  · simp only [HashString.rawStdStringEq, HashString.operatorEqStdString, and_self]
    exact key _

/-- C10: for every pair of `HashString` instances `a` and `b`, `a == b` is true exactly
when their stored integers are equal; the comparison is the integer comparison and
uses nothing else. -/
theorem operatorEq_iff_stored_eq (a b : HashString) :
    (HashString.operatorEq a b = true ↔ a.m_uiHashOfString = b.m_uiHashOfString) ∧
    HashString.operatorEq a b = decide (a.m_uiHashOfString = b.m_uiHashOfString) := by
  simp [HashString.operatorEq]

/-- C11: inequality is the negation of equality in every form.  For all instances `h`,
`g`, every `const char*` `p` and every `std::string` `r` (embedded null bytes
included), `h != g` is `!(h == g)`, and each raw form of `!=` is defined exactly when
the matching `==` is and returns its negation; for a `std::string` both are always
defined. -/
theorem ne_is_not_eq (sgn : Bool) (h g : HashString) (p : CharPtr) (r : StdString) :
    HashString.operatorNe h g = !(HashString.operatorEq h g) ∧
    HashString.operatorNeCStr sgn h p =
      (HashString.operatorEqCStr sgn h p).map (fun b => !b) ∧
    HashString.operatorNeStdString sgn h r =
      (HashString.operatorEqStdString sgn h r).map (fun b => !b) ∧
    HashString.rawCStrNe sgn p h = (HashString.rawCStrEq sgn p h).map (fun b => !b) ∧
    HashString.rawStdStringNe sgn r h =
      (HashString.rawStdStringEq sgn r h).map (fun b => !b) ∧
    (∃ b, HashString.operatorEqStdString sgn h r = some b ∧
      HashString.operatorNeStdString sgn h r = some (!b) ∧
      HashString.rawStdStringEq sgn r h = some b ∧
      HashString.rawStdStringNe sgn r h = some (!b)) := by
  refine ⟨rfl, rfl, rfl, rfl, rfl, ?_⟩
  obtain ⟨v, hv⟩ := PerformHash_c_str_isSome sgn r
  refine ⟨decide (h.m_uiHashOfString = v), ?_, ?_, ?_, ?_⟩ <;>
    simp [HashString.operatorEqStdString, HashString.operatorNeStdString,
      HashString.rawStdStringEq, HashString.rawStdStringNe, HashString.operatorEqCStr, hv]

/-- C12: equality is symmetric in every form.  For all instances `a`, `b`,
`(a == b) = (b == a)`; for every instance `h`, `const char*` `p` and `std::string`
`r`, `(h == p) = (p == h)`, `(h == r) = (r == h)`, `(h != p) = (p != h)` and
`(h != r) = (r != h)`. -/
theorem eq_symmetric (sgn : Bool) (a b h : HashString) (p : CharPtr) (r : StdString) :
    HashString.operatorEq a b = HashString.operatorEq b a ∧
    HashString.operatorNe a b = HashString.operatorNe b a ∧
    HashString.operatorEqCStr sgn h p = HashString.rawCStrEq sgn p h ∧
    HashString.operatorEqStdString sgn h r = HashString.rawStdStringEq sgn r h ∧
    HashString.operatorNeCStr sgn h p = HashString.rawCStrNe sgn p h ∧
    HashString.operatorNeStdString sgn h r = HashString.rawStdStringNe sgn r h := by
  have hab : HashString.operatorEq a b = HashString.operatorEq b a := by
    simp only [HashString.operatorEq]
    exact decide_eq_decide.mpr eq_comm
  refine ⟨hab, ?_, rfl, rfl, rfl, rfl⟩
  simp only [HashString.operatorNe, hab]

/-- C13: for every string `s` and `h = HashString(s)`, the copy `HashString(h)` holds
the stored integer of `h`, and `c == h`, `c == s` and `s == c` are all true, for the
C-string and the `std::string` form; the copy is a function of the stored integer of
`h` alone. -/
theorem copy_equal_to_original (sgn : Bool) (s : List Byte) (hs : ∀ b ∈ s, b ≠ 0)
    (r : StdString) :
    (∃ h, HashString.fromCStr sgn (cString s) = some h ∧
      (HashString.copy h).m_uiHashOfString = h.m_uiHashOfString ∧
      HashString.operatorEq (HashString.copy h) h = true ∧
      HashString.operatorEqCStr sgn (HashString.copy h) (cString s) = some true ∧
      HashString.rawCStrEq sgn (cString s) (HashString.copy h) = some true) ∧
    (∃ g, HashString.fromStdString sgn r = some g ∧
      (HashString.copy g).m_uiHashOfString = g.m_uiHashOfString ∧
      HashString.operatorEq (HashString.copy g) g = true ∧
      HashString.operatorEqStdString sgn (HashString.copy g) r = some true ∧
      HashString.rawStdStringEq sgn r (HashString.copy g) = some true) ∧
    (∀ h1 h2 : HashString, h1.m_uiHashOfString = h2.m_uiHashOfString →
      HashString.copy h1 = HashString.copy h2) := by
  refine ⟨?_, ?_, ?_⟩
  · have hv := PerformHash_cString sgn s hs
    obtain ⟨hc, he, hr⟩ := construct_compare_of_hash sgn _ _ hv
    exact ⟨_, hc, rfl, by simp [HashString.operatorEq, HashString.copy], he, hr⟩
  · obtain ⟨v, hv⟩ := PerformHash_c_str_isSome sgn r
    obtain ⟨hc, he, hr⟩ := construct_compare_of_hash sgn _ _ hv
    exact ⟨⟨v⟩, hc, rfl, by simp [HashString.operatorEq, HashString.copy], he, hr⟩
  · intro h1 h2 h12
    simp only [HashString.copy, h12]

/-- Witness of C13 at the C-string `"AB"` and the `std::string` `'A','B',0,'C','D'`. -/
theorem copy_equal_to_original_witness :
    (∀ b ∈ ([65, 66] : List Byte), b ≠ 0) ∧
    ∃ h, HashString.fromCStr true (cString [65, 66]) = some h ∧
      (HashString.copy h).m_uiHashOfString = h.m_uiHashOfString ∧
      HashString.operatorEq (HashString.copy h) h = true ∧
      HashString.operatorEqCStr true (HashString.copy h) (cString [65, 66]) = some true ∧
      HashString.rawCStrEq true (cString [65, 66]) (HashString.copy h) = some true :=
  ⟨by simp, (copy_equal_to_original true [65, 66] (by simp) [65, 66, 0, 67, 68]).1⟩

/-- C14: collisions exist.  The distinct null-free strings `"ab"` and `"bA"` have the
same hash `5863208`, so the instances built from them compare equal and
`HashString("ab") == "bA"` is true although the strings differ. -/
theorem collision_exists (sgn : Bool) :
    ∃ s1 s2 : List Byte, s1 ≠ s2 ∧ (∀ b ∈ s1, b ≠ 0) ∧ (∀ b ∈ s2, b ≠ 0) ∧
      s1 = [97, 98] ∧ s2 = [98, 65] ∧
      HashString.PerformHash sgn (cString s1) = some 5863208 ∧
      HashString.PerformHash sgn (cString s2) = some 5863208 ∧
      ∃ h1 h2, HashString.fromCStr sgn (cString s1) = some h1 ∧
        HashString.fromCStr sgn (cString s2) = some h2 ∧
        HashString.operatorEq h1 h2 = true ∧
        HashString.operatorEqCStr sgn h1 (cString s2) = some true := by
  have e1 : HashString.PerformHash sgn (cString [97, 98]) = some 5863208 := by
    cases sgn <;> rfl
  have e2 : HashString.PerformHash sgn (cString [98, 65]) = some 5863208 := by
    cases sgn <;> rfl
  refine ⟨[97, 98], [98, 65], by simp, by simp, by simp, rfl, rfl, e1, e2,
    ⟨5863208⟩, ⟨5863208⟩, ?_, ?_, ?_, ?_⟩
  · simp only [HashString.fromCStr, e1, Option.map_some']
  · simp only [HashString.fromCStr, e2, Option.map_some']
  · simp [HashString.operatorEq]
  · simp [HashString.operatorEqCStr, e2]

/-- `PerformHash` returns a value on every pointer to an array that holds a null
byte. -/
theorem PerformHash_isSome_of_terminated (sgn : Bool) (p : CharPtr)
    (hp : CharPtr.terminated p = true) : ∃ v, HashString.PerformHash sgn p = some v := by
  cases p with
  | none => simp [CharPtr.terminated] at hp
  | some buf =>
    have hmem : (0 : Byte) ∈ buf := by
      simpa [CharPtr.terminated] using hp
    rcases exists_null_free_split buf with h | ⟨pre, post, hsplit, hpre⟩
    · exact absurd rfl (h 0 hmem)
    · rw [hsplit]
      exact ⟨_, PerformHash_append_null sgn pre post hpre⟩

/-- A public operation that returns leaves the object it was applied to as it was. -/
theorem call_keeps_object (sgn : Bool) (self : HashString) (op : PublicOp)
    (res : HashString × OpValue) (h : HashString.call sgn self op = some res) :
    res.1 = self := by
  cases op <;> simp only [HashString.call, Option.map_eq_some', Option.some.injEq] at h
  all_goals first
    | (obtain ⟨b, _, hb⟩ := h; rw [← hb])
    | rw [← h]

/-- A public operation whose raw C-string operand is null-terminated returns. -/
theorem call_returns (sgn : Bool) (self : HashString) (op : PublicOp)
    (hop : PublicOp.operandTerminated op = true) :
    ∃ v, HashString.call sgn self op = some (self, v) := by
  cases op with
  | eqCStr p =>
    obtain ⟨v, hv⟩ := PerformHash_isSome_of_terminated sgn p hop
    simp only [HashString.call, HashString.operatorEqCStr, hv, Option.map_some']
    exact ⟨_, rfl⟩
  | eqStdString r =>
    obtain ⟨v, hv⟩ := PerformHash_c_str_isSome sgn r
    simp only [HashString.call, HashString.operatorEqStdString, hv, Option.map_some']
    exact ⟨_, rfl⟩
  | eqHashString g => exact ⟨_, rfl⟩
  | neCStr p =>
    obtain ⟨v, hv⟩ := PerformHash_isSome_of_terminated sgn p hop
    simp only [HashString.call, HashString.operatorNeCStr,
      HashString.operatorEqCStr, hv, Option.map_some']
    exact ⟨_, rfl⟩
  | neStdString r =>
    obtain ⟨v, hv⟩ := PerformHash_c_str_isSome sgn r
    simp only [HashString.call, HashString.operatorNeStdString,
      HashString.operatorEqCStr, hv, Option.map_some']
    exact ⟨_, rfl⟩
  | neHashString g => exact ⟨_, rfl⟩
  | rawCStrEq p =>
    obtain ⟨v, hv⟩ := PerformHash_isSome_of_terminated sgn p hop
    simp only [HashString.call, HashString.rawCStrEq,
      HashString.operatorEqCStr, hv, Option.map_some']
    exact ⟨_, rfl⟩
  | rawStdStringEq r =>
    obtain ⟨v, hv⟩ := PerformHash_c_str_isSome sgn r
    simp only [HashString.call, HashString.rawStdStringEq,
      HashString.operatorEqStdString, hv, Option.map_some']
    exact ⟨_, rfl⟩
  | rawCStrNe p =>
    obtain ⟨v, hv⟩ := PerformHash_isSome_of_terminated sgn p hop
    simp only [HashString.call, HashString.rawCStrNe,
      HashString.operatorEqCStr, hv, Option.map_some']
    exact ⟨_, rfl⟩
  | rawStdStringNe r =>
    obtain ⟨v, hv⟩ := PerformHash_c_str_isSome sgn r
    simp only [HashString.call, HashString.rawStdStringNe,
      HashString.operatorEqStdString, hv, Option.map_some']
    exact ⟨_, rfl⟩
  | copyConstruct => exact ⟨_, rfl⟩

/-- A sequence of public operations that returns leaves the object as it was. -/
theorem callAll_keeps_object (sgn : Bool) (ops : List PublicOp) :
    ∀ self after : HashString, HashString.callAll sgn self ops = some after → after = self := by
  induction ops with
  | nil =>
    intro self after h
    simp only [HashString.callAll, Option.some.injEq] at h
    exact h.symm
  | cons op ops ih =>
    intro self after h
    simp only [HashString.callAll] at h
    cases hc : HashString.call sgn self op with
    | none => rw [hc] at h; cases h
    | some res =>
      rw [hc] at h
      have h1 := call_keeps_object sgn self op res hc
      have h2 := ih res.1 after h
      rw [h2, h1]

/-- C15: the stored integer never changes after construction.  Every sequence of
public operations other than construction (all `==` and `!=` forms and copy
construction from the instance) whose raw C-string operands are null-terminated
returns and leaves the stored integer as it was; each single operation does so as
well; and whatever sequence returns at all leaves it unchanged.  No operation assigns
to an instance: `operator=` is deleted, and `PublicOp` has no such case. -/
theorem stored_value_never_changes (sgn : Bool) (self : HashString) (ops : List PublicOp)
    (hops : ∀ op ∈ ops, PublicOp.operandTerminated op = true) :
    (∃ after, HashString.callAll sgn self ops = some after ∧
      after.m_uiHashOfString = self.m_uiHashOfString) ∧
    (∀ op ∈ ops, ∃ after v, HashString.call sgn self op = some (after, v) ∧
      after.m_uiHashOfString = self.m_uiHashOfString) ∧
    (∀ (others : List PublicOp) (after : HashString),
      HashString.callAll sgn self others = some after →
      after.m_uiHashOfString = self.m_uiHashOfString) ∧
    HashString.call sgn self PublicOp.copyConstruct =
      some (self, OpValue.newInstance ⟨self.m_uiHashOfString⟩) := by
  refine ⟨?_, ?_, ?_, rfl⟩
  · have hall : ∀ (l : List PublicOp) (x : HashString),
        (∀ op ∈ l, PublicOp.operandTerminated op = true) →
        HashString.callAll sgn x l = some x := by
      intro l
      induction l with
      | nil => intro x _; rfl
      | cons op l ih =>
        intro x hl
        obtain ⟨v, hv⟩ := call_returns sgn x op (hl op (List.mem_cons_self op l))
        simp only [HashString.callAll, hv]
        exact ih x (fun o ho => hl o (List.mem_cons_of_mem op ho))
    exact ⟨self, hall ops self hops, rfl⟩
  · intro op hop
    obtain ⟨v, hv⟩ := call_returns sgn self op (hops op hop)
    exact ⟨self, v, hv, rfl⟩
  · intro others after h
    rw [callAll_keeps_object sgn others self after h]

/-- Witness of C15 at the instance storing `177638` and the sequence `h == "A"`, copy
construction, `h != std::string("AB")`, `"" == h`. -/
theorem stored_value_never_changes_witness :
    (∀ op ∈ [PublicOp.eqCStr (cString [65]), PublicOp.copyConstruct,
        PublicOp.neStdString [65, 66], PublicOp.rawCStrEq (cString [])],
      PublicOp.operandTerminated op = true) ∧
    ∃ after, HashString.callAll true ⟨177638⟩
        [PublicOp.eqCStr (cString [65]), PublicOp.copyConstruct,
          PublicOp.neStdString [65, 66], PublicOp.rawCStrEq (cString [])] = some after ∧
      after.m_uiHashOfString = (⟨177638⟩ : HashString).m_uiHashOfString :=
  ⟨by simp [PublicOp.operandTerminated, CharPtr.terminated, cString],
    (stored_value_never_changes true ⟨177638⟩ _
      (by simp [PublicOp.operandTerminated, CharPtr.terminated, cString])).1⟩

/-- On a null-terminated array the counting loop and the loop of `PerformHash` return
the same value, and the counter grows by the number of bytes before the first null. -/
theorem PerformHashLoopCount_terminated (sgn : Bool) (s : List Byte) :
    ∀ acc n : Nat, ∃ v,
      HashString.PerformHashLoopCount sgn (s ++ [0]) acc n =
        some (v, n + (s.takeWhile (fun b => decide (b ≠ 0))).length) ∧
      HashString.PerformHashLoop sgn (s ++ [0]) acc = some v := by
  have h0 : toUInt32 (charValue sgn (0 : Byte)) = 0 :=
    (toUInt32_charValue_eq_zero sgn 0).mpr rfl
  induction s with
  | nil =>
    intro acc n
    exact ⟨acc, by simp [HashString.PerformHashLoopCount, h0],
      by simp [HashString.PerformHashLoop, h0]⟩
  | cons b s ih =>
    intro acc n
    by_cases hb : b = 0
    · subst hb
      exact ⟨acc, by simp [HashString.PerformHashLoopCount, h0],
        by simp [HashString.PerformHashLoop, h0]⟩
    · have hne : toUInt32 (charValue sgn b) ≠ 0 := fun h =>
        hb ((toUInt32_charValue_eq_zero sgn b).mp h)
      obtain ⟨v, hv1, hv2⟩ :=
        ih (((acc * 33) % 2 ^ 64 + toUInt32 (charValue sgn b)) % 2 ^ 64) (n + 1)
      have e1 : HashString.PerformHashLoopCount sgn (b :: (s ++ [0])) acc n =
          HashString.PerformHashLoopCount sgn (s ++ [0])
            (((acc * 33) % 2 ^ 64 + toUInt32 (charValue sgn b)) % 2 ^ 64) (n + 1) := by
        simp only [HashString.PerformHashLoopCount, hne, if_false]
      have e2 : HashString.PerformHashLoop sgn (b :: (s ++ [0])) acc =
          HashString.PerformHashLoop sgn (s ++ [0])
            (((acc * 33) % 2 ^ 64 + toUInt32 (charValue sgn b)) % 2 ^ 64) := by
        simp only [HashString.PerformHashLoop, hne, if_false]
      have e3 : ((b :: s).takeWhile (fun b => decide (b ≠ 0))).length =
          (s.takeWhile (fun b => decide (b ≠ 0))).length + 1 := by
        simp [List.takeWhile_cons, hb]
      refine ⟨v, ?_, ?_⟩
      · rw [List.cons_append, e1, hv1, e3, Nat.add_assoc, Nat.add_comm 1]
      · rw [List.cons_append, e2, hv2]

/-- C16: the hash function is total.  For every finite byte sequence `s`, the empty
one included, given as the null-terminated array `s ++ [0]`, `PerformHash` returns a
value, after executing its loop body exactly once per byte before the first null, and
the value is in `0 .. 2^64 - 1`. -/
theorem PerformHash_total (sgn : Bool) (s : List Byte) :
    ∃ v, HashString.PerformHash sgn (cString s) = some v ∧
      HashString.PerformHashLoopCount sgn (s ++ [0]) 5381 0 =
        some (v, (s.takeWhile (fun b => decide (b ≠ 0))).length) ∧
      v < 2 ^ 64 := by
  obtain ⟨v, hv1, hv2⟩ := PerformHashLoopCount_terminated sgn s 5381 0
  refine ⟨v, hv2, ?_, PerformHashLoop_lt sgn (s ++ [0]) 5381 v (by norm_num) hv2⟩
  rw [hv1, Nat.zero_add]

/-- C17, as stated, fails: the constructor has no check of its pointer, so a null
pointer is not rejected; it reaches the dereference in `PerformHash`, which is
undefined behaviour. -/
theorem construct_null_counterexample :
    HashString.constructCStr true none = ConstructionOutcome.undefined ∧
    HashString.constructCStr true none ≠ ConstructionOutcome.rejected := by
  refine ⟨rfl, ?_⟩
  intro h
  cases h

/-- C17, amended: constructing a `HashString` from a null pointer is not validated.
The constructor hands the pointer to `PerformHash`, which dereferences it: the call is
undefined behaviour, for which the code defines no instance (in particular not the
empty-string instance storing `5381`) and raises no contract violation; no
constructor call on any pointer ends in a signalled rejection. -/
theorem construct_null_undefined (sgn : Bool) :
    HashString.PerformHash sgn none = none ∧
    HashString.constructCStr sgn none = ConstructionOutcome.undefined ∧
    (∀ h, HashString.constructCStr sgn none ≠ ConstructionOutcome.constructed h) ∧
    HashString.constructCStr sgn none ≠ ConstructionOutcome.constructed ⟨5381⟩ ∧
    (∀ p : CharPtr, HashString.constructCStr sgn p ≠ ConstructionOutcome.rejected) := by
  refine ⟨rfl, rfl, ?_, ?_, ?_⟩
  · intro h hh
    cases hh
  · intro hh
    cases hh
  · intro p hh
    unfold HashString.constructCStr at hh
    cases hf : HashString.fromCStr sgn p with
    | none => rw [hf] at hh; cases hh
    | some g => rw [hf] at hh; cases hh

/-- C18: the two constructors agree on null-free text.  For every byte string `s`
without a null byte, the instance built from `s` as a C-string (the null-terminated
array, whatever follows the terminator) and the instance built from `s` as a
`std::string` exist and hold the same stored integer, and `h == s` gives the same
result through the C-string and the `std::string` comparison operators. -/
theorem constructors_agree_on_null_free (sgn : Bool) (s t : List Byte)
    (hs : ∀ b ∈ s, b ≠ 0) (h : HashString) :
    (∃ g, HashString.fromCStr sgn (cString s) = some g ∧
      HashString.fromCStr sgn (some (s ++ [0] ++ t)) = some g ∧
      HashString.fromStdString sgn s = some g) ∧
    (∃ b, HashString.operatorEqCStr sgn h (cString s) = some b ∧
      HashString.operatorEqCStr sgn h (some (s ++ [0] ++ t)) = some b ∧
      HashString.operatorEqStdString sgn h s = some b ∧
      HashString.rawCStrEq sgn (cString s) h = some b ∧
      HashString.rawStdStringEq sgn s h = some b) := by
  have h1 := PerformHash_cString sgn s hs
  have h2 : HashString.PerformHash sgn (some (s ++ [0] ++ t)) =
      some (s.foldl (fun a b => (a * 33 + toUInt32 (charValue sgn b)) % 2 ^ 64) 5381) := by
    rw [List.append_assoc]
    exact PerformHash_append_null sgn s t hs
  have h3 : HashString.PerformHash sgn (StdString.c_str s) =
      some (s.foldl (fun a b => (a * 33 + toUInt32 (charValue sgn b)) % 2 ^ 64) 5381) :=
    PerformHash_cString sgn s hs
  constructor
  · refine ⟨⟨s.foldl (fun a b => (a * 33 + toUInt32 (charValue sgn b)) % 2 ^ 64) 5381⟩,
      ?_, ?_, ?_⟩
    · simp only [HashString.fromCStr, h1, Option.map_some']
    · simp only [HashString.fromCStr, h2, Option.map_some']
    · simp only [HashString.fromStdString, h3, Option.map_some']
  · refine ⟨decide (h.m_uiHashOfString =
        s.foldl (fun a b => (a * 33 + toUInt32 (charValue sgn b)) % 2 ^ 64) 5381),
      ?_, ?_, ?_, ?_, ?_⟩
    · simp only [HashString.operatorEqCStr, h1, Option.map_some']
    · simp only [HashString.operatorEqCStr, h2, Option.map_some']
    · simp only [HashString.operatorEqStdString, h3, Option.map_some']
    · simp only [HashString.rawCStrEq, HashString.operatorEqCStr, h1, Option.map_some']
    · simp only [HashString.rawStdStringEq, HashString.operatorEqStdString, h3,
        Option.map_some']

/-- Witness of C18 at `s = "AB"` with `"CD"` behind the terminator. -/
theorem constructors_agree_on_null_free_witness :
    (∀ b ∈ ([65, 66] : List Byte), b ≠ 0) ∧
    ∃ g, HashString.fromCStr true (cString [65, 66]) = some g ∧
      HashString.fromCStr true (some ([65, 66] ++ [0] ++ [67, 68])) = some g ∧
      HashString.fromStdString true [65, 66] = some g :=
  ⟨by simp, (constructors_agree_on_null_free true [65, 66] [67, 68] (by simp) ⟨0⟩).1⟩

/-! The step of the hash as a map on 64-bit values -/

/-- The converted character is a 32-bit value. -/
theorem toUInt32_charValue_lt (sgn : Bool) (b : Byte) :
    toUInt32 (charValue sgn b) < 2 ^ 32 := by
  have hb := b.isLt
  simp only [toUInt32, charValue]
  cases sgn <;> simp <;> omega

/-- Different bytes convert to different 32-bit values. -/
theorem toUInt32_charValue_injective (sgn : Bool) (x y : Byte)
    (h : toUInt32 (charValue sgn x) = toUInt32 (charValue sgn y)) : x = y := by
  rw [Fin.ext_iff]
  cases sgn
  · rw [toUInt32_charValue_unsigned, toUInt32_charValue_unsigned] at h
    exact h
  · rcases Nat.lt_or_ge x.val 128 with hx | hx <;>
      rcases Nat.lt_or_ge y.val 128 with hy | hy
    · rw [toUInt32_charValue_low true x (by omega),
        toUInt32_charValue_low true y (by omega)] at h
      exact h
    · rw [toUInt32_charValue_low true x (by omega),
        toUInt32_charValue_signed_high y hy] at h
      omega
    · rw [toUInt32_charValue_signed_high x hx,
        toUInt32_charValue_low true y (by omega)] at h
      omega
    · rw [toUInt32_charValue_signed_high x hx, toUInt32_charValue_signed_high y hy] at h
      omega

/-- Multiplication by 33 followed by adding `c` is injective on 64-bit values. -/
theorem step_injective (a b c : Nat) (ha : a < 2 ^ 64) (hb : b < 2 ^ 64)
    (h : (a * 33 + c) % 2 ^ 64 = (b * 33 + c) % 2 ^ 64) : a = b := by
  have h1 : a * 33 + c ≡ b * 33 + c [MOD 2 ^ 64] := h
  have h2 : a * 33 ≡ b * 33 [MOD 2 ^ 64] := Nat.ModEq.add_right_cancel' c h1
  have hg : Nat.gcd (2 ^ 64) 33 = 1 := by norm_num
  have h3 : a ≡ b [MOD 2 ^ 64] := Nat.ModEq.cancel_right_of_coprime hg h2
  have h4 : a % 2 ^ 64 = b % 2 ^ 64 := h3
  rwa [Nat.mod_eq_of_lt ha, Nat.mod_eq_of_lt hb] at h4

/-- One step from the same value with different 32-bit characters gives different
values. -/
theorem step_ne_of_char_ne (a x y : Nat) (hx : x < 2 ^ 32) (hy : y < 2 ^ 32) (hxy : x ≠ y) :
    (a * 33 + x) % 2 ^ 64 ≠ (a * 33 + y) % 2 ^ 64 := by
  intro h
  have h1 : a * 33 + x ≡ a * 33 + y [MOD 2 ^ 64] := h
  have h2 : x ≡ y [MOD 2 ^ 64] := Nat.ModEq.add_left_cancel' (a * 33) h1
  have h4 : x % 2 ^ 64 = y % 2 ^ 64 := h2
  rw [Nat.mod_eq_of_lt (by omega), Nat.mod_eq_of_lt (by omega)] at h4
  exact hxy h4

/-- The fold of the step over `q` keeps 64-bit values apart. -/
theorem foldl_step_ne (sgn : Bool) (q : List Byte) :
    ∀ a b : Nat, a < 2 ^ 64 → b < 2 ^ 64 → a ≠ b →
      q.foldl (fun a b => (a * 33 + toUInt32 (charValue sgn b)) % 2 ^ 64) a ≠
        q.foldl (fun a b => (a * 33 + toUInt32 (charValue sgn b)) % 2 ^ 64) b := by
  induction q with
  | nil => intro a b _ _ hab; exact hab
  | cons c q ih =>
    intro a b ha hb hab
    simp only [List.foldl_cons]
    apply ih _ _ (Nat.mod_lt _ (by norm_num)) (Nat.mod_lt _ (by norm_num))
    intro h
    exact hab (step_injective a b _ ha hb h)

/-- The fold of the step from a 64-bit value is a 64-bit value. -/
theorem foldl_step_lt (sgn : Bool) (p : List Byte) :
    ∀ a : Nat, a < 2 ^ 64 →
      p.foldl (fun a b => (a * 33 + toUInt32 (charValue sgn b)) % 2 ^ 64) a < 2 ^ 64 := by
  induction p with
  | nil => intro a ha; exact ha
  | cons c p ih =>
    intro a _
    simp only [List.foldl_cons]
    exact ih _ (Nat.mod_lt _ (by norm_num))

/-- Two lists of equal length that agree at every index but `i` are one list with the
element at index `i` replaced. -/
theorem exists_split_of_differ_at (s : List Byte) :
    ∀ (t : List Byte) (i : Nat), s.length = t.length → i < s.length →
      (∀ j, j ≠ i → s[j]? = t[j]?) →
      ∃ p x y q, s = p ++ x :: q ∧ t = p ++ y :: q ∧ s[i]? = some x ∧ t[i]? = some y := by
  induction s with
  | nil => intro t i _ hi; simp at hi
  | cons a s ih =>
    intro t i hlen hi hsame
    cases t with
    | nil => simp at hlen
    | cons b t =>
      cases i with
      | zero =>
        have hst : s = t := by
          apply List.ext_getElem?
          intro n
          have := hsame (n + 1) (by omega)
          simpa using this
        exact ⟨[], a, b, s, rfl, by simp [hst], by simp, by simp⟩
      | succ i =>
        have hab : a = b := by
          have := hsame 0 (by omega)
          simpa using this
        have hlen2 : s.length = t.length := by simpa using hlen
        have hi2 : i < s.length := by simpa using hi
        obtain ⟨p, x, y, q, hs, ht, hx, hy⟩ := ih t i hlen2 hi2 (by
          intro j hj
          have := hsame (j + 1) (by omega)
          simpa using this)
        exact ⟨a :: p, x, y, q, by simp [hs], by simp [hab, ht], by simpa using hx,
          by simpa using hy⟩

/-- C19: single-byte differences never collide.  For all null-free byte strings `s`
and `t` of equal length that differ at exactly one index `i`, `PerformHash` returns
different values on the two, so the instances built from them compare unequal. -/
theorem single_byte_difference_never_collides (sgn : Bool) (s t : List Byte)
    (hs : ∀ b ∈ s, b ≠ 0) (ht : ∀ b ∈ t, b ≠ 0) (hlen : s.length = t.length)
    (i : Nat) (hi : i < s.length) (hdiff : s[i]? ≠ t[i]?)
    (hsame : ∀ j, j ≠ i → s[j]? = t[j]?) :
    ∃ v w, HashString.PerformHash sgn (cString s) = some v ∧
      HashString.PerformHash sgn (cString t) = some w ∧ v ≠ w ∧
      HashString.fromCStr sgn (cString s) = some ⟨v⟩ ∧
      HashString.fromCStr sgn (cString t) = some ⟨w⟩ ∧
      HashString.operatorEq ⟨v⟩ ⟨w⟩ = false ∧
      HashString.operatorNe ⟨v⟩ ⟨w⟩ = true := by
  obtain ⟨p, x, y, q, hsp, htp, hx, hy⟩ := exists_split_of_differ_at s t i hlen hi hsame
  have hxy : x ≠ y := by
    intro h
    apply hdiff
    rw [hx, hy, h]
  have hv := PerformHash_cString sgn s hs
  have hw := PerformHash_cString sgn t ht
  have hne : s.foldl (fun a b => (a * 33 + toUInt32 (charValue sgn b)) % 2 ^ 64) 5381 ≠
      t.foldl (fun a b => (a * 33 + toUInt32 (charValue sgn b)) % 2 ^ 64) 5381 := by
    rw [hsp, htp]
    simp only [List.foldl_append, List.foldl_cons]
    apply foldl_step_ne sgn q _ _ (Nat.mod_lt _ (by norm_num)) (Nat.mod_lt _ (by norm_num))
    apply step_ne_of_char_ne _ _ _ (toUInt32_charValue_lt sgn x) (toUInt32_charValue_lt sgn y)
    intro h
    exact hxy (toUInt32_charValue_injective sgn x y h)
  refine ⟨_, _, hv, hw, hne, ?_, ?_, ?_, ?_⟩
  · simp only [HashString.fromCStr, hv, Option.map_some']
  · simp only [HashString.fromCStr, hw, Option.map_some']
  · simp only [HashString.operatorEq]
    exact decide_eq_false hne
  · simp only [HashString.operatorNe, HashString.operatorEq]
    rw [decide_eq_false hne]
    rfl

/-- Witness of C19 at `"AB"` and `"AC"`, which differ at index 1. -/
theorem single_byte_difference_never_collides_witness :
    (∀ b ∈ ([65, 66] : List Byte), b ≠ 0) ∧ (∀ b ∈ ([65, 67] : List Byte), b ≠ 0) ∧
    ∃ v w, HashString.PerformHash true (cString [65, 66]) = some v ∧
      HashString.PerformHash true (cString [65, 67]) = some w ∧ v ≠ w ∧
      HashString.fromCStr true (cString [65, 66]) = some ⟨v⟩ ∧
      HashString.fromCStr true (cString [65, 67]) = some ⟨w⟩ ∧
      HashString.operatorEq ⟨v⟩ ⟨w⟩ = false ∧
      HashString.operatorNe ⟨v⟩ ⟨w⟩ = true :=
  ⟨by simp, by simp,
    single_byte_difference_never_collides true [65, 66] [65, 67] (by simp) (by simp) rfl 1
      (by simp) (by simp) (by
        intro j hj
        rcases j with _ | _ | j
        · rfl
        · exact absurd rfl hj
        · rfl)⟩

/-- The fold of the step from `a` is, modulo `2 ^ 64`, `a` times the power of 33 plus
the fold from zero. -/
theorem foldl_step_modEq (sgn : Bool) (t : List Byte) :
    ∀ a : Nat,
      t.foldl (fun a b => (a * 33 + toUInt32 (charValue sgn b)) % 2 ^ 64) a ≡
        a * 33 ^ t.length +
          t.foldl (fun a b => (a * 33 + toUInt32 (charValue sgn b)) % 2 ^ 64) 0
        [MOD 2 ^ 64] := by
  induction t with
  | nil =>
    intro a
    simp only [List.foldl_nil, List.length_nil, pow_zero, mul_one, add_zero]
    exact Nat.ModEq.refl a
  | cons x t ih =>
    intro a
    simp only [List.foldl_cons, List.length_cons]
    have h1 := ih ((a * 33 + toUInt32 (charValue sgn x)) % 2 ^ 64)
    have h2 := ih ((0 * 33 + toUInt32 (charValue sgn x)) % 2 ^ 64)
    have h3 : (a * 33 + toUInt32 (charValue sgn x)) % 2 ^ 64 * 33 ^ t.length ≡
        (a * 33 + toUInt32 (charValue sgn x)) * 33 ^ t.length [MOD 2 ^ 64] :=
      (Nat.mod_modEq _ _).mul_right _
    have h4 : (0 * 33 + toUInt32 (charValue sgn x)) % 2 ^ 64 * 33 ^ t.length ≡
        (0 * 33 + toUInt32 (charValue sgn x)) * 33 ^ t.length [MOD 2 ^ 64] :=
      (Nat.mod_modEq _ _).mul_right _
    have h5 := h1.trans (h3.add_right _)
    have h6 := h2.trans (h4.add_right _)
    have h7 : (a * 33 + toUInt32 (charValue sgn x)) * 33 ^ t.length +
          t.foldl (fun a b => (a * 33 + toUInt32 (charValue sgn b)) % 2 ^ 64) 0 =
        a * 33 ^ (t.length + 1) +
          ((0 * 33 + toUInt32 (charValue sgn x)) * 33 ^ t.length +
            t.foldl (fun a b => (a * 33 + toUInt32 (charValue sgn b)) % 2 ^ 64) 0) := by
      ring
    rw [h7] at h5
    exact h5.trans (Nat.ModEq.add_left _ h6.symm)

/-- The concatenation law of the fold, over the integers. -/
theorem foldl_step_append (sgn : Bool) (s t : List Byte) (vs vt vst : Nat)
    (hvs : s.foldl (fun a b => (a * 33 + toUInt32 (charValue sgn b)) % 2 ^ 64) 5381 = vs)
    (hvt : t.foldl (fun a b => (a * 33 + toUInt32 (charValue sgn b)) % 2 ^ 64) 5381 = vt)
    (hvst : (s ++ t).foldl (fun a b => (a * 33 + toUInt32 (charValue sgn b)) % 2 ^ 64) 5381 =
      vst) :
    (vst : Int) = (((vs : Int) - 5381) * 33 ^ t.length + (vt : Int)) % 2 ^ 64 := by
  rw [List.foldl_append, hvs] at hvst
  have hvs_lt : vs < 2 ^ 64 := by
    rw [← hvs]
    exact foldl_step_lt sgn s 5381 (by norm_num)
  have hlt : vst < 2 ^ 64 := by
    rw [← hvst]
    exact foldl_step_lt sgn t vs hvs_lt
  have h1 := foldl_step_modEq sgn t vs
  have h2 := foldl_step_modEq sgn t 5381
  rw [hvst] at h1
  rw [hvt] at h2
  generalize t.foldl (fun a b => (a * 33 + toUInt32 (charValue sgn b)) % 2 ^ 64) 0 = v0 at h1 h2
  have i1 : (vst : Int) ≡ (vs : Int) * 33 ^ t.length + (v0 : Int) [ZMOD 2 ^ 64] := by
    have := Int.natCast_modEq_iff.mpr h1
    push_cast at this
    exact this
  have i2 : (vt : Int) ≡ 5381 * 33 ^ t.length + (v0 : Int) [ZMOD 2 ^ 64] := by
    have := Int.natCast_modEq_iff.mpr h2
    push_cast at this
    exact this
  have i3 : (vst : Int) ≡ ((vs : Int) - 5381) * 33 ^ t.length + (vt : Int) [ZMOD 2 ^ 64] := by
    have i4 : ((vs : Int) - 5381) * 33 ^ t.length + (vt : Int) ≡
        ((vs : Int) - 5381) * 33 ^ t.length + (5381 * 33 ^ t.length + (v0 : Int))
        [ZMOD 2 ^ 64] := Int.ModEq.add_left _ i2
    have i5 : ((vs : Int) - 5381) * 33 ^ t.length + (5381 * 33 ^ t.length + (v0 : Int)) =
        (vs : Int) * 33 ^ t.length + (v0 : Int) := by ring
    rw [i5] at i4
    exact i1.trans i4.symm
  have i6 : (vst : Int) % 2 ^ 64 = (vst : Int) :=
    Int.emod_eq_of_lt (Int.natCast_nonneg vst) (by exact_mod_cast hlt)
  rw [← i6]
  exact i3

/-- C20: the concatenation law of the rolling hash.  For all byte strings `s` and `t`
with bytes in `1..127`, `PerformHash` returns on `s`, `t` and `s ++ t`, and
`PerformHash(s ++ t) = ((PerformHash(s) - 5381) * 33^|t| + PerformHash(t)) mod 2^64`,
read over the integers; and appending one byte `c` in `1..127` gives
`PerformHash(s ++ [c]) = (PerformHash(s) * 33 + c) mod 2^64`. -/
theorem concatenation_law (sgn : Bool) (s t : List Byte)
    (hs : ∀ b ∈ s, 1 ≤ b.val ∧ b.val ≤ 127) (ht : ∀ b ∈ t, 1 ≤ b.val ∧ b.val ≤ 127) :
    ∃ vs vt vst, HashString.PerformHash sgn (cString s) = some vs ∧
      HashString.PerformHash sgn (cString t) = some vt ∧
      HashString.PerformHash sgn (cString (s ++ t)) = some vst ∧
      (vst : Int) = (((vs : Int) - 5381) * 33 ^ t.length + (vt : Int)) % 2 ^ 64 ∧
      ∀ c : Byte, 1 ≤ c.val → c.val ≤ 127 →
        HashString.PerformHash sgn (cString (s ++ [c])) =
          some ((vs * 33 + c.val) % 2 ^ 64) := by
  have hs0 : ∀ b ∈ s, b ≠ 0 := fun b hb => ne_zero_of_one_le b (hs b hb).1
  have ht0 : ∀ b ∈ t, b ≠ 0 := fun b hb => ne_zero_of_one_le b (ht b hb).1
  have hst0 : ∀ b ∈ s ++ t, b ≠ 0 := by
    intro b hb
    rcases List.mem_append.mp hb with h | h
    · exact hs0 b h
    · exact ht0 b h
  refine ⟨_, _, _, PerformHash_cString sgn s hs0, PerformHash_cString sgn t ht0,
    PerformHash_cString sgn (s ++ t) hst0, foldl_step_append sgn s t _ _ _ rfl rfl rfl, ?_⟩
  intro c hc1 hc2
  have hsc0 : ∀ b ∈ s ++ [c], b ≠ 0 := by
    intro b hb
    rcases List.mem_append.mp hb with h | h
    · exact hs0 b h
    · rw [List.mem_singleton.mp h]
      exact ne_zero_of_one_le c hc1
  rw [PerformHash_cString sgn (s ++ [c]) hsc0, List.foldl_append]
  simp only [List.foldl_cons, List.foldl_nil]
  rw [toUInt32_charValue_low sgn c hc2]

/-- Witness of C20 at `s = "AB"`, `t = "CD"`. -/
theorem concatenation_law_witness :
    (∀ b ∈ ([65, 66] : List Byte), 1 ≤ b.val ∧ b.val ≤ 127) ∧
    (∀ b ∈ ([67, 68] : List Byte), 1 ≤ b.val ∧ b.val ≤ 127) ∧
    ∃ vs vt vst, HashString.PerformHash true (cString [65, 66]) = some vs ∧
      HashString.PerformHash true (cString [67, 68]) = some vt ∧
      HashString.PerformHash true (cString ([65, 66] ++ [67, 68])) = some vst ∧
      (vst : Int) = (((vs : Int) - 5381) * 33 ^ ([67, 68] : List Byte).length + (vt : Int))
        % 2 ^ 64 ∧
      ∀ c : Byte, 1 ≤ c.val → c.val ≤ 127 →
        HashString.PerformHash true (cString ([65, 66] ++ [c])) =
          some ((vs * 33 + c.val) % 2 ^ 64) :=
  ⟨by simp; decide, by simp; decide,
    concatenation_law true [65, 66] [67, 68] (by simp; decide) (by simp; decide)⟩
